import Mathlib

/-!
Shallow embedding of the xpRegGenomeLib core, translated from the Python source:

* `src/scripts/RGTools/BedTable.py` — the bed-table abstraction (`BedTable3`
  and its subclasses): rows, the `_is_sorted` linear scan, the load-time
  re-sort, `region_subset`, `apply_logical_filter`, and the class hierarchy's
  method resolution (for the `load_from_BedTable3` lookup).
* `src/scripts/merge_multi_bw.py` — `MergeMultiBw.combine_bw_intervals`, the
  per-base sweep that merges two per-chromosome signal tracks.
* `src/scripts/count_bw_sig.py` — `count_single_region`, the per-region
  padding / strand / raw-count-or-RPK computation, and `parse_region_input`.

Modelling conventions: Python ints are `ℤ` (genomic positions inside the merge
sweep are `ℕ`, as they index `range(chrom_length)`); Python floats carried by
signal tracks are modelled as `ℚ` (every claim checked here only uses exact
float arithmetic: adding 0, negation, and sums of small integer values);
a pyBigWig reader is abstracted as its query function `ℤ → ℤ → ℚ` returning
the nan-to-num summed values over a half-open range, per the collaborator
contract; Python exceptions are `Except` errors.
-/

namespace RGLib

/-! ### BedTable rows and sorting (BedTable.py) -/

/-- A row of a `BedTable3`: `(chrom, start, end)`. -/
abbrev Row := String × ℤ × ℤ

/-- One comparison step of `BedTable3._is_sorted`: does row `cur` violate the
order when it directly follows row `prev`?  Mirrors the three `if` tests of
the Python scan (chrom descending, equal-chrom start descending, equal-chrom
equal-start end descending). -/
def rowViol (prev cur : Row) : Bool :=
  if cur.1 < prev.1 then true
  else if cur.1 = prev.1 then
    if cur.2.1 < prev.2.1 then true
    else if cur.2.1 = prev.2.1 then
      decide (cur.2.2 < prev.2.2)
    else false
  else false

/-- `BedTable3._is_sorted`: the linear scan over consecutive rows, returning
`false` at the first violation. -/
def is_sorted : List Row → Bool
  | a :: b :: rest => !(rowViol a b) && is_sorted (b :: rest)
  | _ => true

/-- The tuple order `(chrom asc lexicographically, start asc, end asc)` used by
`BedTable3._sort` (pandas `sort_values(by=["chrom", "start", "end"])`). -/
def rowLe (a b : Row) : Prop :=
  a.1 < b.1 ∨ (a.1 = b.1 ∧ (a.2.1 < b.2.1 ∨ (a.2.1 = b.2.1 ∧ a.2.2 ≤ b.2.2)))

instance : DecidableRel rowLe := fun a b => by
  unfold rowLe
  infer_instance

instance : IsTrans Row rowLe := by
  constructor
  rintro ⟨ca, sa, ea⟩ ⟨cb, sb, eb⟩ ⟨cc, sc, ec⟩ hab hbc
  rcases hab with h1 | ⟨h1, h2⟩ <;> rcases hbc with h3 | ⟨h3, h4⟩
  · exact Or.inl (lt_trans h1 h3)
  · exact Or.inl (h3 ▸ h1)
  · exact Or.inl (h1 ▸ h3)
  · refine Or.inr ⟨h1.trans h3, ?_⟩
    rcases h2 with h2 | ⟨h2a, h2b⟩ <;> rcases h4 with h4 | ⟨h4a, h4b⟩
    · exact Or.inl (by omega)
    · exact Or.inl (by omega)
    · exact Or.inl (by omega)
    · exact Or.inr ⟨by omega, by omega⟩

instance : IsTotal Row rowLe := by
  constructor
  rintro ⟨ca, sa, ea⟩ ⟨cb, sb, eb⟩
  rcases lt_trichotomy ca cb with h | h | h
  · exact Or.inl (Or.inl h)
  · subst h
    rcases lt_trichotomy sa sb with h' | h' | h'
    · exact Or.inl (Or.inr ⟨rfl, Or.inl h'⟩)
    · subst h'
      rcases le_total ea eb with h'' | h''
      · exact Or.inl (Or.inr ⟨rfl, Or.inr ⟨rfl, h''⟩⟩)
      · exact Or.inr (Or.inr ⟨rfl, Or.inr ⟨rfl, h''⟩⟩)
    · exact Or.inr (Or.inr ⟨rfl, Or.inl h'⟩)
  · exact Or.inr (Or.inl h)

/-- The post-parse step of `BedTable3.load_from_file` / `load_from_dataframe`:
`if not self._is_sorted(): self._sort()`.  The pandas stable re-sort by
`(chrom, start, end)` is modelled by `List.insertionSort` under `rowLe`
(for a 3-column table the whole row is the sort key, so any correct sort of
the rows produces this list). -/
def load_table (l : List Row) : List Row :=
  if is_sorted l then l else List.insertionSort rowLe l

/-- `BedTable3.region_subset`: keep rows with matching chrom whose `start` is
`>=` the query start and whose `end` is `<=` the query end, then build a new
table from the filtered frame (`load_from_dataframe`, hence `load_table`). -/
def region_subset (l : List Row) (chrom : String) (start stop : ℤ) : List Row :=
  load_table
    ((((l.filter (fun r => decide (r.1 = chrom))).filter
        (fun r => decide (r.2.1 ≥ start))).filter
        (fun r => decide (r.2.2 ≤ stop))))

/-- Error raised by `BedTable3.apply_logical_filter`: the `ValueError` for a
non-boolean mask, and the pandas `IndexError` for a boolean mask whose length
does not match the number of rows (both are `ValidationError` in the spec's
taxonomy). -/
inductive MaskError where
  | notBoolean
  | lengthMismatch
deriving DecidableEq

/-- Row selection of `self._data_df.loc[logical_array]`: keep the rows at the
positions where the mask is `true`, in order. -/
def maskFilter : List Row → List Bool → List Row
  | r :: l, b :: m => if b then r :: maskFilter l m else maskFilter l m
  | _, _ => []

/-- `BedTable3.apply_logical_filter`: a numpy mask is modelled as its dtype
flag (`mask_is_bool`) plus its elements; the dtype check precedes the
element-wise selection, whose length check pandas performs. The selected rows
go through `load_from_dataframe` (hence `load_table`). -/
def apply_logical_filter (l : List Row) (mask_is_bool : Bool) (mask : List Bool) :
    Except MaskError (List Row) :=
  if ¬ mask_is_bool then Except.error MaskError.notBoolean
  else if mask.length ≠ l.length then Except.error MaskError.lengthMismatch
  else Except.ok (load_table (maskFilter l mask))

/-! ### The BedTable class hierarchy and `parse_region_input` -/

/-- The classes defined in `BedTable.py`. -/
inductive BTClass where
  | bedTable3
  | bedTable6
  | bedTable6Plus
  | bedTablePairEnd
deriving DecidableEq

/-- Method-resolution order of each class (single inheritance, as in the
source: `BedTable6(BedTable3)`, `BedTable6Plus(BedTable6)`,
`BedTablePairEnd(BedTable3)`). -/
def mro : BTClass → List BTClass
  | BTClass.bedTable3 => [BTClass.bedTable3]
  | BTClass.bedTable6 => [BTClass.bedTable6, BTClass.bedTable3]
  | BTClass.bedTable6Plus => [BTClass.bedTable6Plus, BTClass.bedTable6, BTClass.bedTable3]
  | BTClass.bedTablePairEnd => [BTClass.bedTablePairEnd, BTClass.bedTable3]

/-- The methods and properties each class of `BedTable.py` defines itself
(`__init__` and name-mangled private members omitted; they are not
reachable as `load_from_BedTable3` anyway). -/
def classMethods : BTClass → List String
  | BTClass.bedTable3 =>
      ["column_names", "column_types", "extra_column_names", "extra_column_dtype",
       "load_from_file", "load_from_dataframe", "apply_logical_filter",
       "region_subset", "to_dataframe", "write", "get_chrom_names",
       "get_start_locs", "get_end_locs", "get_region_by_index", "iter_regions",
       "_sort", "_is_sorted"]
  | BTClass.bedTable6 =>
      ["column_names", "column_types", "get_region_names", "get_region_scores",
       "get_region_strands"]
  | BTClass.bedTable6Plus =>
      ["column_names", "column_types", "extra_column_names", "extra_column_dtype",
       "get_region_extra_column"]
  | BTClass.bedTablePairEnd =>
      ["column_names", "column_types", "extra_column_names", "extra_column_dtype",
       "get_other_region_chroms", "get_other_region_starts", "get_other_region_ends",
       "get_pair_names", "get_pair_scores", "get_region_strands",
       "get_other_region_strands", "get_extra_column", "search_pair_extra_column"]

/-- Python attribute lookup on an instance: the method exists iff some class
in the MRO defines it. -/
def resolveMethod (c : BTClass) (m : String) : Bool :=
  (mro c).any (fun cl => (classMethods cl).contains m)

/-- Errors of `parse_region_input` in `count_bw_sig.py`: the explicit
unsupported-file-type exception, and the `AttributeError` Python raises when
a called method does not resolve. -/
inductive ParseError where
  | unsupportedType
  | attributeError
deriving DecidableEq

/-- Keys of `REGION_FILE_SUFFIX2CLASS_DICT`. -/
def region_file_types : List String := ["bed3", "bed6", "bed6gene"]

/-- `parse_region_input(region_file, file_type)`, modelled on the parsed rows
of the region file.  For `file_type == "bed3"` the source constructs a
`BedTable6` and calls `new_region_bed_table.load_from_BedTable3(...)`; the
call succeeds only if the attribute resolves on `BedTable6`.  The dataframe
post-processing after that branch is not modelled: the bed3 path never
reaches it, and the claims checked here do not concern it. -/
def parse_region_input (file_rows : List Row) (file_type : String) :
    Except ParseError (List Row) :=
  if ¬ region_file_types.contains file_type then Except.error ParseError.unsupportedType
  else
    let loaded := load_table file_rows
    if file_type = "bed3" then
      if resolveMethod BTClass.bedTable6 "load_from_BedTable3" then Except.ok loaded
      else Except.error ParseError.attributeError
    else Except.ok loaded

/-! ### Signal-track merge (merge_multi_bw.py, `MergeMultiBw.combine_bw_intervals`) -/

/-- A bigwig interval `(start, end, value)` over a half-open base range. -/
abbrev Iv := ℕ × ℕ × ℚ

/-- The loop state of `combine_bw_intervals`: the two replicate cursors, the
run of the current signal (`temp_signal_stack`), and the accumulated output
(`merged_interval_list`). -/
structure MState where
  p1 : ℕ
  p2 : ℕ
  stack : List ℚ
  out : List Iv

/-- `rep[p]` with the source's bound guard handled at call sites; out-of-range
reads never happen in the Python loop and return a dummy here. -/
def trackGet (rep : List Iv) (p : ℕ) : Iv :=
  rep.getD p (0, 0, 0)

/-- The signal-run bookkeeping at one base `i` of the sweep: the four-branch
`if`/`elif` chain of the Python loop body operating on `temp_signal_stack`
and `merged_interval_list`. -/
def runStep (i : ℕ) (signal : ℚ) (stack : List ℚ) (out : List Iv) :
    List ℚ × List Iv :=
  if signal ≠ 0 ∧ stack.length = 0 then
    (stack ++ [signal], out)
  else if signal ≠ 0 ∧ stack.getLastD 0 = signal then
    (stack ++ [signal], out)
  else if signal ≠ 0 ∧ stack.getLastD 0 ≠ signal then
    ([signal], out ++ [(i - stack.length, i, stack.getLastD 0)])
  else if stack.length ≠ 0 then
    ([], out ++ [(i - stack.length, i, stack.getLastD 0)])
  else
    (stack, out)

/-- One iteration of the sweep at base `i`: advance each cursor past an
interval whose end has been reached, read the active values, and update the
run state. -/
def stepMerge (rep1 rep2 : List Iv) (st : MState) (i : ℕ) : MState :=
  let p1 := if st.p1 < rep1.length ∧ (trackGet rep1 st.p1).2.1 ≤ i then st.p1 + 1 else st.p1
  let p2 := if st.p2 < rep2.length ∧ (trackGet rep2 st.p2).2.1 ≤ i then st.p2 + 1 else st.p2
  let sig1 : ℚ := if p1 < rep1.length ∧ (trackGet rep1 p1).1 ≤ i then (trackGet rep1 p1).2.2 else 0
  let sig2 : ℚ := if p2 < rep2.length ∧ (trackGet rep2 p2).1 ≤ i then (trackGet rep2 p2).2.2 else 0
  let signal := sig1 + sig2
  let so := runStep i signal st.stack st.out
  ⟨p1, p2, so.1, so.2⟩

/-- `MergeMultiBw.combine_bw_intervals(rep1, rep2, chrom_length)`: the per-base
sweep `for i in range(chrom_length)` starting from empty state, returning the
merged interval list. -/
def combine_bw_intervals (rep1 rep2 : List Iv) (chrom_length : ℕ) : List Iv :=
  ((List.range chrom_length).foldl (stepMerge rep1 rep2) ⟨0, 0, [], []⟩).out

/-- A well-formed signal track over a chromosome of length `L`, as the spec's
data model describes inputs to the merge: positive-length intervals lying in
`[0, L)` (half-open, so `end ≤ L`), sorted and non-overlapping, and coalesced
(abutting intervals carry different values). -/
def track_wf (rep : List Iv) (L : ℕ) : Prop :=
  (∀ t ∈ rep, t.1 < t.2.1 ∧ t.2.1 ≤ L) ∧
    List.Chain' (fun a b : Iv => a.2.1 ≤ b.1 ∧ (a.2.1 = b.1 → a.2.2 ≠ b.2.2)) rep

/-- A track whose intervals moreover end strictly before `L` and carry nonzero
values — the hypotheses under which the sweep reproduces the track exactly
(an interval reaching `L` is never flushed, a zero value is treated as a
gap). -/
def track_wf_strict (rep : List Iv) (L : ℕ) : Prop :=
  (∀ t ∈ rep, t.1 < t.2.1 ∧ t.2.1 < L ∧ t.2.2 ≠ 0) ∧
    List.Chain' (fun a b : Iv => a.2.1 ≤ b.1 ∧ (a.2.1 = b.1 → a.2.2 ≠ b.2.2)) rep

/-- The claim-C7 coalescing relation on output intervals: abutting neighbours
carry different values (a maximal constant run is one interval). -/
def touchDiff (a b : Iv) : Prop :=
  a.2.1 = b.1 → a.2.2 ≠ b.2.2

/-- The sweep invariant behind coalescing, at state `(stack, out)` with `n`
bases processed: the run is no longer than the processed prefix; the output
is coalesced; after the last output interval, a closed run ends strictly
before `n`, while an open run that abuts it carries a different value. -/
def sweepInv (stack : List ℚ) (out : List Iv) (n : ℕ) : Prop :=
  stack.length ≤ n ∧
    List.Chain' touchDiff out ∧
    ∀ prev, out.getLast? = some prev →
      (stack = [] → prev.2.1 < n) ∧
      (stack ≠ [] → prev.2.1 + stack.length = n → prev.2.2 ≠ stack.getLastD 0)

/-! ### Region counting (count_bw_sig.py, `count_single_region`) -/

/-- Exceptions `count_single_region` can raise: invalid padding under the
`raise` policy, an unsupported padding-resolution method, strandness declared
in single-bigwig mode, and the `NameError` left by an unmatched
strand/output-type (no branch assigns the variable that is then read). -/
inductive CountError where
  | invalidPadding
  | unsupportedPaddingMethod
  | strandnessNotIgnored
  | nameError
deriving DecidableEq

/-- The padding block at the top of `count_single_region`: Python's
`if - l_pad - r_pad + min_len_after_padding > end - start`, resolved per
`method_resolving_invalid_padding`; otherwise `start -= l_pad`,
`end += r_pad`.  Returns the effective `(start, end)` bounds. -/
def resolve_padding (start stop l_pad r_pad min_len_after_padding : ℤ)
    (method_resolving_invalid_padding : String) : Except CountError (ℤ × ℤ) :=
  if - l_pad - r_pad + min_len_after_padding > stop - start then
    if method_resolving_invalid_padding = "fallback" then
      Except.ok (start, stop)
    else if method_resolving_invalid_padding = "raise" then
      Except.error CountError.invalidPadding
    else
      Except.error CountError.unsupportedPaddingMethod
  else
    Except.ok (start - l_pad, stop + r_pad)

/-- The body of `count_single_region` up to (and excluding) the final
output-type dispatch: padding resolution, the plus-strand query, the
minus-strand query (negated; zero with a strand check in single-bigwig mode),
and the strand combination.  Returns `(count, start, end)` with the effective
bounds, which the RPK branch divides by.  The two pyBigWig readers are
abstracted as their summed-query functions
(`np.nan_to_num(bw.values(chrom, s, e)).sum()` for one fixed chromosome);
`stop` is Python's `end`.  The strand dispatch mirrors the source's
`if`/`elif` chain, falling through to the `NameError` Python raises when no
branch binds `count`. -/
def count_core (bw_pl bw_mn : ℤ → ℤ → ℚ) (start stop : ℤ) (strand : String)
    (single_bw : Bool) (l_pad r_pad min_len_after_padding : ℤ)
    (method_resolving_invalid_padding : String) : Except CountError (ℚ × ℤ × ℤ) :=
  match resolve_padding start stop l_pad r_pad min_len_after_padding
      method_resolving_invalid_padding with
  | Except.error e => Except.error e
  | Except.ok (start, stop) =>
    let pl_count := bw_pl start stop
    let mn_res : Except CountError ℚ :=
      if single_bw then
        if strand ≠ "." then Except.error CountError.strandnessNotIgnored
        else Except.ok 0
      else Except.ok (- bw_mn start stop)
    match mn_res with
    | Except.error e => Except.error e
    | Except.ok mn_count =>
      if strand = "+" then Except.ok (pl_count, start, stop)
      else if strand = "-" then Except.ok (mn_count, start, stop)
      else if strand = "." then Except.ok (pl_count + mn_count, start, stop)
      else Except.error CountError.nameError

/-- The final `if output_type == "raw_count" ... elif output_type == "RPK"`
dispatch of `count_single_region` (`region_length = end - start` on the
effective bounds), applied to the combined count. -/
def output_dispatch (output_type : String) (r : Except CountError (ℚ × ℤ × ℤ)) :
    Except CountError ℚ :=
  match r with
  | Except.error e => Except.error e
  | Except.ok (count, start, stop) =>
    if output_type = "raw_count" then Except.ok count
    else if output_type = "RPK" then
      Except.ok (count / ((stop - start : ℤ) : ℚ) * 1000)
    else Except.error CountError.nameError

/-- `count_single_region`: the combined count followed by the output-type
dispatch. -/
def count_single_region (bw_pl bw_mn : ℤ → ℤ → ℚ) (start stop : ℤ) (strand : String)
    (single_bw : Bool) (output_type : String) (l_pad r_pad min_len_after_padding : ℤ)
    (method_resolving_invalid_padding : String) : Except CountError ℚ :=
  output_dispatch output_type
    (count_core bw_pl bw_mn start stop strand single_bw l_pad r_pad
      min_len_after_padding method_resolving_invalid_padding)

/-- The effective region length `count_single_region` divides by for RPK:
the original length when the fallback kept the unpadded bounds, the padded
length otherwise. -/
def effective_length (start stop l_pad r_pad min_len_after_padding : ℤ) : ℚ :=
  if - l_pad - r_pad + min_len_after_padding > stop - start then
    ((stop - start : ℤ) : ℚ)
  else
    ((stop + r_pad - (start - l_pad) : ℤ) : ℚ)

/-! ## Theorems

Helper lemmas come first; each claim of the specification is then settled by
one theorem (with a witness instantiation when the theorem has hypotheses).
-/

/-- The scan step accepts a consecutive pair exactly when it is ordered under
the `(chrom, start, end)` tuple order. -/
theorem rowViol_eq_false (a b : Row) : rowViol a b = false ↔ rowLe a b := by
  obtain ⟨ca, sa, ea⟩ := a
  obtain ⟨cb, sb, eb⟩ := b
  unfold rowViol rowLe
  dsimp only
  split_ifs with h1 h2 h3 h4
  · simp only [Bool.true_eq_false, false_iff]
    rintro (h | ⟨h, -⟩)
    · exact (lt_asymm h) h1
    · subst h
      exact lt_irrefl _ h1
  · simp only [Bool.true_eq_false, false_iff]
    subst h2
    rintro (h | ⟨-, h | ⟨h, -⟩⟩)
    · exact lt_irrefl _ h
    · omega
    · omega
  · subst h2
    subst h4
    simp only [decide_eq_false_iff_not, not_lt]
    constructor
    · intro h
      exact Or.inr ⟨by trivial, Or.inr ⟨by trivial, h⟩⟩
    · rintro (h | ⟨-, h | ⟨-, h⟩⟩)
      · exact absurd h (lt_irrefl _)
      · omega
      · exact h
  · subst h2
    refine iff_of_true rfl (Or.inr ⟨rfl, Or.inl ?_⟩)
    omega
  · rcases lt_trichotomy ca cb with h | h | h
    · exact iff_of_true rfl (Or.inl h)
    · exact absurd h.symm h2
    · exact absurd h h1

/-- The recursive `is_sorted` scan agrees with adjacent-pair ordering. -/
theorem is_sorted_eq_true_iff (l : List Row) :
    is_sorted l = true ↔ List.Chain' rowLe l := by
  induction l with
  | nil => simp [is_sorted]
  | cons a l ih =>
    cases l with
    | nil => simp [is_sorted]
    | cons b t =>
      rw [List.chain'_cons, ← ih]
      show (!(rowViol a b) && is_sorted (b :: t)) = true ↔ _
      rw [Bool.and_eq_true, Bool.not_eq_true', rowViol_eq_false]

/-- `load_table` permutes its input (identity, or the insertion sort). -/
theorem load_table_perm (l : List Row) : (load_table l).Perm l := by
  unfold load_table
  split
  · exact List.Perm.refl l
  · exact List.perm_insertionSort rowLe l

/-- After `load_table`, the scan accepts the table. -/
theorem load_table_sorted (l : List Row) : is_sorted (load_table l) = true := by
  unfold load_table
  split
  · assumption
  · rw [is_sorted_eq_true_iff]
    exact (List.sorted_insertionSort rowLe l).chain'

/-- C6: after a successful load the table satisfies `is_sorted`; the load
re-sorts (a permutation of the rows, the identity on sorted input, position
indices implicitly re-running from 0 in the list model); and `is_sorted` is
equivalent to the direct linear scan comparing consecutive rows under the
`(chrom asc, start asc, end asc)` tuple order. -/
theorem load_table_sorted_and_scan_equiv (l : List Row) :
    is_sorted (load_table l) = true ∧ (load_table l).Perm l ∧
      (is_sorted l = true ↔ List.Chain' rowLe l) :=
  ⟨load_table_sorted l, load_table_perm l, is_sorted_eq_true_iff l⟩

/-- C8: `region_subset` returns exactly the rows of the original table fully
contained in the query region — same chrom, `start >= query start`,
`end <= query end` — as a multiset (first conjunct) and as membership (second
conjunct); merely-overlapping rows are excluded.  (The original table is
untouched: the model is pure, as is the source, which builds the result from
fresh `.loc` filters of a copy.) -/
theorem region_subset_containment (l : List Row) (chrom : String) (start stop : ℤ) :
    (region_subset l chrom start stop).Perm
        (((l.filter (fun r => decide (r.1 = chrom))).filter
            (fun r => decide (r.2.1 ≥ start))).filter
            (fun r => decide (r.2.2 ≤ stop))) ∧
      ∀ r : Row, r ∈ region_subset l chrom start stop ↔
        r ∈ l ∧ r.1 = chrom ∧ start ≤ r.2.1 ∧ r.2.2 ≤ stop := by
  unfold region_subset
  refine ⟨load_table_perm _, fun r => ?_⟩
  rw [(load_table_perm _).mem_iff]
  simp only [List.mem_filter, decide_eq_true_eq, ge_iff_le, and_assoc]

/-- Rows selected by a boolean mask all come from the table. -/
theorem maskFilter_subset : ∀ (l : List Row) (mask : List Bool) (r : Row),
    r ∈ maskFilter l mask → r ∈ l := by
  intro l
  induction l with
  | nil => intro mask r h; cases mask <;> simp [maskFilter] at h
  | cons a l ih =>
    intro mask r h
    cases mask with
    | nil => simp [maskFilter] at h
    | cons b m =>
      cases b with
      | false =>
        exact List.mem_cons_of_mem a (ih m r (by simpa [maskFilter] using h))
      | true =>
        rcases (by simpa [maskFilter] using h : r = a ∨ r ∈ maskFilter l m) with h' | h'
        · exact h' ▸ List.mem_cons_self a l
        · exact List.mem_cons_of_mem a (ih m r h')

/-- A matching-length mask selects one row per `true` entry. -/
theorem maskFilter_length : ∀ (l : List Row) (mask : List Bool),
    mask.length = l.length → (maskFilter l mask).length = mask.count true := by
  intro l
  induction l with
  | nil =>
    intro mask h
    cases mask with
    | nil => simp [maskFilter]
    | cons b m => simp at h
  | cons a l ih =>
    intro mask h
    cases mask with
    | nil => simp at h
    | cons b m =>
      have hm : m.length = l.length := by simpa using h
      cases b with
      | false => simp [maskFilter, ih m hm, List.count_cons]
      | true => simp [maskFilter, ih m hm, List.count_cons]

/-- C9: the boolean-mask filter fails when the mask is not boolean or its
length mismatches the row count, and otherwise returns the table of exactly
the rows at `true` positions (rebuilt through the load path, hence given up
to the re-sort permutation, one row per `true`, all from the table). -/
theorem apply_logical_filter_claim (l : List Row) (mask_is_bool : Bool) (mask : List Bool) :
    (mask_is_bool = false →
      apply_logical_filter l mask_is_bool mask = Except.error MaskError.notBoolean) ∧
    (mask_is_bool = true → mask.length ≠ l.length →
      apply_logical_filter l mask_is_bool mask = Except.error MaskError.lengthMismatch) ∧
    (mask_is_bool = true → mask.length = l.length →
      apply_logical_filter l mask_is_bool mask = Except.ok (load_table (maskFilter l mask)) ∧
        (load_table (maskFilter l mask)).Perm (maskFilter l mask) ∧
        (maskFilter l mask).length = mask.count true ∧
        ∀ r, r ∈ maskFilter l mask → r ∈ l) := by
  refine ⟨fun h => ?_, fun h h' => ?_, fun h h' => ?_⟩
  · subst h
    simp [apply_logical_filter]
  · subst h
    simp [apply_logical_filter, h']
  · subst h
    exact ⟨by simp [apply_logical_filter, h'], load_table_perm _,
      maskFilter_length l mask h', maskFilter_subset l mask⟩

/-- C9 witness: both failure modes and a successful selection on a concrete
two-row table. -/
theorem apply_logical_filter_claim_witness :
    apply_logical_filter [("chr1", 0, 5), ("chr2", 3, 9)] false [true, false] =
        Except.error MaskError.notBoolean ∧
      apply_logical_filter [("chr1", 0, 5), ("chr2", 3, 9)] true [true] =
        Except.error MaskError.lengthMismatch ∧
      apply_logical_filter [("chr1", 0, 5), ("chr2", 3, 9)] true [true, false] =
        Except.ok [("chr1", 0, 5)] := by
  refine ⟨(apply_logical_filter_claim _ _ _).1 rfl,
    (apply_logical_filter_claim _ _ _).2.1 rfl (by decide), ?_⟩
  have h := ((apply_logical_filter_claim [("chr1", 0, 5), ("chr2", 3, 9)]
    true [true, false]).2.2 rfl rfl).1
  rw [h]
  with_unfolding_all rfl

/-- C10: no class of the `BedTable.py` hierarchy defines
`load_from_BedTable3`, so `parse_region_input` with the default `bed3` file
type always fails with `AttributeError` after loading the region file. -/
theorem parse_region_input_bed3_attribute_error (rows : List Row) :
    (∀ c : BTClass, resolveMethod c "load_from_BedTable3" = false) ∧
      parse_region_input rows "bed3" = Except.error ParseError.attributeError := by
  constructor
  · intro c
    cases c <;> decide
  · have h1 : "bed3" ∈ region_file_types := by decide
    have h2 : resolveMethod BTClass.bedTable6 "load_from_BedTable3" = false := by decide
    simp [parse_region_input, h1, h2]

/-- C1 counterexample input (spec Scenario D): `l_pad=100, r_pad=100,
min_len_after_padding=50` on a region of length 30.  The code deems this
padding valid (its check is `min_len - l_pad - r_pad > end - start`, i.e.
`30 < -150` is false): under `raise` no error is raised, and under both
policies the query uses the padded bounds `(-100, 130)` — the plus reader
returning the queried width shows a 230-wide query, where the claim predicts
a `ValidationError` and a 30-wide fallback query respectively. -/
theorem count_scenarioD_counterexample :
    count_single_region (fun s e => ((e - s : ℤ) : ℚ)) (fun _ _ => 0) 0 30 "." false
        "raw_count" 100 100 50 "raise" = Except.ok 230 ∧
      count_single_region (fun s e => ((e - s : ℤ) : ℚ)) (fun _ _ => 0) 0 30 "." false
        "raw_count" 100 100 50 "fallback" = Except.ok 230 := by
  constructor <;> with_unfolding_all rfl

/-- C1 (amended): `count_single_region` deems the padding invalid exactly
when `end - start < min_len_after_padding - l_pad - r_pad` (the padded length
falls below the minimum); in that case `raise` fails and `fallback` queries
the original bounds, and otherwise the query uses
`(start - l_pad, end + r_pad)`. -/
theorem count_single_region_padding_resolution (bw_pl bw_mn : ℤ → ℤ → ℚ)
    (start stop l_pad r_pad min_len_after_padding : ℤ) :
    ((- l_pad - r_pad + min_len_after_padding > stop - start) →
      count_single_region bw_pl bw_mn start stop "+" false "raw_count"
          l_pad r_pad min_len_after_padding "raise" =
        Except.error CountError.invalidPadding ∧
      count_single_region bw_pl bw_mn start stop "+" false "raw_count"
          l_pad r_pad min_len_after_padding "fallback" = Except.ok (bw_pl start stop)) ∧
    ((¬ - l_pad - r_pad + min_len_after_padding > stop - start) → ∀ method,
      count_single_region bw_pl bw_mn start stop "+" false "raw_count"
          l_pad r_pad min_len_after_padding method =
        Except.ok (bw_pl (start - l_pad) (stop + r_pad))) := by
  constructor
  · intro h
    constructor <;> simp [count_single_region, count_core, resolve_padding, output_dispatch, h]
  · intro h method
    simp [count_single_region, count_core, resolve_padding, output_dispatch, h]

/-- C1 witness: the invalid case at `min_len_after_padding = 250` (region of
length 30, pads 100) raises or falls back to the original 30-wide bounds, and
the valid case at `min_len_after_padding = 50` queries the padded 230-wide
bounds. -/
theorem count_single_region_padding_resolution_witness :
    count_single_region (fun s e => ((e - s : ℤ) : ℚ)) (fun _ _ => 0) 0 30 "+" false
        "raw_count" 100 100 250 "raise" = Except.error CountError.invalidPadding ∧
      count_single_region (fun s e => ((e - s : ℤ) : ℚ)) (fun _ _ => 0) 0 30 "+" false
        "raw_count" 100 100 250 "fallback" = Except.ok 30 ∧
      count_single_region (fun s e => ((e - s : ℤ) : ℚ)) (fun _ _ => 0) 0 30 "+" false
        "raw_count" 100 100 50 "raise" = Except.ok 230 := by
  obtain ⟨h1, -⟩ := count_single_region_padding_resolution
    (fun s e => ((e - s : ℤ) : ℚ)) (fun _ _ => 0) 0 30 100 100 250
  obtain ⟨-, h2⟩ := count_single_region_padding_resolution
    (fun s e => ((e - s : ℤ) : ℚ)) (fun _ _ => 0) 0 30 100 100 50
  have ha := h1 (by norm_num)
  have hb := h2 (by norm_num) "raise"
  refine ⟨ha.1, ?_, ?_⟩
  · rw [ha.2]
    norm_num
  · rw [hb]
    norm_num

/-- C4: with valid padding and two readers, the minus value is the negated
minus query, and the strand dispatch returns the plus value for `+`, the
(negated) minus value for `-`, and their sum for `.`. -/
theorem count_single_region_strand_combination (bw_pl bw_mn : ℤ → ℤ → ℚ)
    (start stop l_pad r_pad min_len_after_padding : ℤ) (method strand : String)
    (hvalid : ¬ - l_pad - r_pad + min_len_after_padding > stop - start)
    (hstrand : strand = "+" ∨ strand = "-" ∨ strand = ".") :
    count_single_region bw_pl bw_mn start stop strand false "raw_count"
        l_pad r_pad min_len_after_padding method =
      Except.ok (if strand = "+" then bw_pl (start - l_pad) (stop + r_pad)
        else if strand = "-" then - bw_mn (start - l_pad) (stop + r_pad)
        else bw_pl (start - l_pad) (stop + r_pad) + - bw_mn (start - l_pad) (stop + r_pad)) := by
  rcases hstrand with h | h | h <;> subst h <;>
    simp [count_single_region, count_core, resolve_padding, output_dispatch, hvalid]

/-- C4 witness (spec Scenario C): strand `.`, plus sum 8, raw minus query -3
(negated to 3), combined 11. -/
theorem count_single_region_strand_combination_witness :
    count_single_region (fun _ _ => 8) (fun _ _ => -3) 0 30 "." false "raw_count"
        0 0 10 "raise" = Except.ok 11 := by
  have h := count_single_region_strand_combination (fun _ _ => 8) (fun _ _ => (-3 : ℚ))
    0 30 0 0 10 "raise" "." (by norm_num) (Or.inr (Or.inr rfl))
  rw [h]
  rw [if_neg (by decide : ¬ ("." : String) = "+"), if_neg (by decide : ¬ ("." : String) = "-")]
  norm_num

/-- The bounds a successful padding resolution returns have the effective
length. -/
theorem resolve_padding_len (start stop l_pad r_pad min_len_after_padding : ℤ)
    (method : String) (s' e' : ℤ)
    (h : resolve_padding start stop l_pad r_pad min_len_after_padding method =
      Except.ok (s', e')) :
    ((e' - s' : ℤ) : ℚ) = effective_length start stop l_pad r_pad min_len_after_padding := by
  unfold resolve_padding at h
  unfold effective_length
  by_cases h1 : - l_pad - r_pad + min_len_after_padding > stop - start
  · rw [if_pos h1] at h
    rw [if_pos h1]
    by_cases h2 : method = "fallback"
    · rw [if_pos h2] at h
      simp only [Except.ok.injEq, Prod.mk.injEq] at h
      obtain ⟨hs, he⟩ := h
      subst hs
      subst he
      rfl
    · rw [if_neg h2] at h
      split_ifs at h
  · rw [if_neg h1] at h
    rw [if_neg h1]
    simp only [Except.ok.injEq, Prod.mk.injEq] at h
    obtain ⟨hs, he⟩ := h
    subst hs
    subst he
    rfl

/-- A successful `count_core` run carries exactly the bounds that the padding
resolution produced. -/
theorem count_core_bounds (bw_pl bw_mn : ℤ → ℤ → ℚ) (start stop : ℤ) (strand : String)
    (single_bw : Bool) (l_pad r_pad min_len_after_padding : ℤ) (method : String)
    (c : ℚ) (s' e' : ℤ)
    (h : count_core bw_pl bw_mn start stop strand single_bw l_pad r_pad
        min_len_after_padding method = Except.ok (c, s', e')) :
    resolve_padding start stop l_pad r_pad min_len_after_padding method =
      Except.ok (s', e') := by
  unfold count_core at h
  cases hres : resolve_padding start stop l_pad r_pad min_len_after_padding method with
  | error e =>
    rw [hres] at h
    simp at h
  | ok p =>
    obtain ⟨ps, pe⟩ := p
    rw [hres] at h
    cases single_bw with
    | false =>
      simp only [Bool.false_eq_true, if_false] at h
      split_ifs at h <;> simp_all
    | true =>
      simp only [if_true] at h
      split_ifs at h <;> simp_all

/-- C5: on identical inputs, the RPK output equals the raw-count output
divided by the effective region length (padded length when padding applied,
original length under fallback) times 1000. -/
theorem count_single_region_rpk_formula (bw_pl bw_mn : ℤ → ℤ → ℚ) (start stop : ℤ)
    (strand : String) (single_bw : Bool) (l_pad r_pad min_len_after_padding : ℤ)
    (method : String) (c : ℚ)
    (h : count_single_region bw_pl bw_mn start stop strand single_bw "raw_count"
        l_pad r_pad min_len_after_padding method = Except.ok c) :
    count_single_region bw_pl bw_mn start stop strand single_bw "RPK"
        l_pad r_pad min_len_after_padding method =
      Except.ok (c / effective_length start stop l_pad r_pad min_len_after_padding * 1000) := by
  unfold count_single_region at h ⊢
  cases hcore : count_core bw_pl bw_mn start stop strand single_bw l_pad r_pad
      min_len_after_padding method with
  | error e =>
    rw [hcore] at h
    simp [output_dispatch] at h
  | ok p =>
    obtain ⟨cnt, s', e'⟩ := p
    rw [hcore] at h
    simp only [output_dispatch] at h ⊢
    simp at h
    subst h
    rw [resolve_padding_len start stop l_pad r_pad min_len_after_padding method s' e'
      (count_core_bounds bw_pl bw_mn start stop strand single_bw l_pad r_pad
        min_len_after_padding method cnt s' e' hcore)]
    simp

/-- C5 witness: constant plus signal 10 over a 30-long region gives raw count
10 and RPK `10 / 30 * 1000 = 1000 / 3`. -/
theorem count_single_region_rpk_formula_witness :
    count_single_region (fun _ _ => 10) (fun _ _ => 0) 0 30 "+" false "RPK"
        0 0 10 "raise" = Except.ok (1000 / 3) := by
  have h := count_single_region_rpk_formula (fun _ _ => 10) (fun _ _ => 0) 0 30 "+"
    false 0 0 10 "raise" 10 (by with_unfolding_all rfl)
  rw [h]
  norm_num [effective_length]

/-- C3 (spec Scenario B): merging `[(0,10,2.0)]` with `[(5,15,3.0)]` over a
chromosome of length 20 yields `[(0,5,2.0),(5,10,5.0),(10,15,3.0)]`. -/
theorem combine_scenarioB :
    combine_bw_intervals [(0, 10, 2)] [(5, 15, 3)] 20 =
      [(0, 5, 2), (5, 10, 5), (10, 15, 3)] := by
  with_unfolding_all rfl

/-- C2 counterexample: the single-interval track `[(0,5,2.0)]` spans exactly
`[0,5)` on a chromosome of length 5 and is well formed in the claim's sense,
yet merging it with the empty track returns `[]`, not the track itself: the
sweep never flushes the run still open when the loop ends at
`chrom_length`. -/
theorem combine_empty_identity_counterexample :
    track_wf [(0, 5, 2)] 5 ∧ combine_bw_intervals [(0, 5, 2)] [] 5 = [] ∧
      combine_bw_intervals [(0, 5, 2)] [] 5 ≠ [(0, 5, 2)] := by
  have heq : combine_bw_intervals [(0, 5, 2)] [] 5 = [] := by with_unfolding_all rfl
  refine ⟨⟨?_, List.chain'_singleton _⟩, heq, ?_⟩
  · intro t ht
    rw [List.mem_singleton] at ht
    subst ht
    exact ⟨by norm_num, by norm_num⟩
  · rw [heq]
    simp

/-! ### Branch lemmas for the sweep body -/

/-- No signal, no open run: the body is a no-op. -/
theorem runStep_zero_nil (i : ℕ) (out : List Iv) : runStep i 0 [] out = ([], out) := by
  simp [runStep]

/-- Nonzero signal onto an empty run: start the run. -/
theorem runStep_pos_nil (i : ℕ) (signal : ℚ) (out : List Iv) (h : signal ≠ 0) :
    runStep i signal [] out = ([signal], out) := by
  simp [runStep, h]

/-- Nonzero signal equal to the running value: extend the run. -/
theorem runStep_pos_extend (i : ℕ) (signal : ℚ) (stack : List ℚ) (out : List Iv)
    (h : signal ≠ 0) (hs : stack ≠ []) (hl : stack.getLastD 0 = signal) :
    runStep i signal stack out = (stack ++ [signal], out) := by
  have hlen : stack.length ≠ 0 := fun h0 => hs (List.length_eq_zero.mp h0)
  unfold runStep
  rw [if_neg (fun hc => hlen hc.2), if_pos ⟨h, hl⟩]

/-- Nonzero signal different from the running value: flush the run as an
interval and restart with the new value. -/
theorem runStep_pos_change (i : ℕ) (signal : ℚ) (stack : List ℚ) (out : List Iv)
    (h : signal ≠ 0) (hs : stack ≠ []) (hl : stack.getLastD 0 ≠ signal) :
    runStep i signal stack out =
      ([signal], out ++ [(i - stack.length, i, stack.getLastD 0)]) := by
  have hlen : stack.length ≠ 0 := fun h0 => hs (List.length_eq_zero.mp h0)
  unfold runStep
  rw [if_neg (fun hc => hlen hc.2), if_neg (fun hc => hl hc.2), if_pos ⟨h, hl⟩]

/-- Zero signal with an open run: flush the run and clear it. -/
theorem runStep_zero_flush (i : ℕ) (stack : List ℚ) (out : List Iv) (hs : stack ≠ []) :
    runStep i 0 stack out = ([], out ++ [(i - stack.length, i, stack.getLastD 0)]) := by
  have hlen : stack.length ≠ 0 := fun h0 => hs (List.length_eq_zero.mp h0)
  unfold runStep
  rw [if_neg (fun hc => hc.1 rfl), if_neg (fun hc => hc.1 rfl), if_neg (fun hc => hc.1 rfl),
    if_pos hlen]

/-! ### Single-step scenario lemmas for merging against the empty track -/

/-- Past the last interval: the sweep is a no-op. -/
theorem step_gap_none (A : List Iv) (k i : ℕ) (out : List Iv) (hk : A.length ≤ k) :
    stepMerge A [] ⟨k, 0, [], out⟩ i = ⟨k, 0, [], out⟩ := by
  dsimp only [stepMerge]
  rw [if_neg (fun hc => absurd hc.1 (not_lt.mpr hk)),
    if_neg (fun hc => absurd hc.1 (lt_irrefl 0)),
    if_neg (fun hc => absurd hc.1 (not_lt.mpr hk)),
    if_neg (fun hc => absurd hc.1 (lt_irrefl 0)),
    add_zero, runStep_zero_nil]

/-- Before the current interval starts: the sweep is a no-op. -/
theorem step_before (A : List Iv) (k i : ℕ) (out : List Iv) (s e : ℕ) (v : ℚ)
    (hk : k < A.length) (ht : trackGet A k = (s, e, v)) (hi : i < s) (hse : s < e) :
    stepMerge A [] ⟨k, 0, [], out⟩ i = ⟨k, 0, [], out⟩ := by
  dsimp only [stepMerge]
  rw [if_neg (fun hc => absurd hc.2 (by rw [ht]; dsimp only; omega)),
    if_neg (fun hc => absurd hc.1 (lt_irrefl 0)),
    if_neg (fun hc => absurd hc.2 (by rw [ht]; dsimp only; omega)),
    if_neg (fun hc => absurd hc.1 (lt_irrefl 0)),
    add_zero, runStep_zero_nil]

/-- A nonempty replicate list. -/
theorem replicate_ne_nil (n : ℕ) (v : ℚ) (h : n ≠ 0) : List.replicate n v ≠ [] := by
  intro hnil
  have hlen := congrArg List.length hnil
  simp at hlen
  exact h hlen

/-- The last element of a nonempty replicate list. -/
theorem getLastD_replicate (n : ℕ) (v d : ℚ) (h : n ≠ 0) :
    (List.replicate n v).getLastD d = v := by
  cases n with
  | zero => exact absurd rfl h
  | succ m => rw [List.replicate_succ', List.getLastD_concat]

/-- Inside the current interval: the run grows by one copy of its value. -/
theorem step_run (A : List Iv) (k i : ℕ) (out : List Iv) (s e : ℕ) (v : ℚ)
    (hk : k < A.length) (ht : trackGet A k = (s, e, v)) (hs_le : s ≤ i) (hi : i < e)
    (hv : v ≠ 0) :
    stepMerge A [] ⟨k, 0, List.replicate (i - s) v, out⟩ i =
      ⟨k, 0, List.replicate (i + 1 - s) v, out⟩ := by
  dsimp only [stepMerge]
  rw [if_neg (fun hc => absurd hc.2 (by rw [ht]; dsimp only; omega)),
    if_neg (fun hc => absurd hc.1 (lt_irrefl 0)),
    if_pos ⟨hk, by rw [ht]; dsimp only; omega⟩,
    if_neg (fun hc => absurd hc.1 (lt_irrefl 0)),
    add_zero, ht]
  dsimp only
  rcases Nat.eq_or_lt_of_le hs_le with hcase | hcase
  · subst hcase
    rw [Nat.sub_self, List.replicate_zero, runStep_pos_nil s v out hv]
    have h1 : s + 1 - s = 1 := by omega
    rw [h1, List.replicate_one]
  · have hlen : i - s ≠ 0 := by omega
    rw [runStep_pos_extend i v _ out hv (replicate_ne_nil _ v hlen)
      (getLastD_replicate _ v 0 hlen)]
    rw [← List.replicate_succ']
    have h1 : i - s + 1 = i + 1 - s := by omega
    rw [h1]

/-- At the end of the current interval with the next interval abutting it:
the run flushes as the finished interval and restarts with the next value. -/
theorem step_boundary_adj (A : List Iv) (k : ℕ) (out : List Iv) (s e : ℕ) (v : ℚ)
    (s2 e2 : ℕ) (v2 : ℚ)
    (hk1 : k + 1 < A.length) (ht : trackGet A k = (s, e, v))
    (ht2 : trackGet A (k + 1) = (s2, e2, v2)) (hs2 : s2 = e)
    (hse : s < e) (hv2 : v2 ≠ 0) (hne : v2 ≠ v) :
    stepMerge A [] ⟨k, 0, List.replicate (e - s) v, out⟩ e =
      ⟨k + 1, 0, [v2], out ++ [(s, e, v)]⟩ := by
  have hlen : e - s ≠ 0 := by omega
  dsimp only [stepMerge]
  rw [if_pos ⟨by omega, by rw [ht]⟩,
    if_neg (fun hc => absurd hc.1 (lt_irrefl 0)),
    if_pos ⟨hk1, by rw [ht2]; dsimp only; omega⟩,
    if_neg (fun hc => absurd hc.1 (lt_irrefl 0)),
    add_zero, ht2]
  dsimp only
  rw [runStep_pos_change e v2 _ out hv2 (replicate_ne_nil _ v hlen)
    (by rw [getLastD_replicate _ v 0 hlen]; exact fun hvv => hne hvv.symm)]
  rw [getLastD_replicate _ v 0 hlen, List.length_replicate]
  have h1 : e - (e - s) = s := by omega
  rw [h1]

/-- At the end of the current interval with no abutting next interval (gap or
end of track): the run flushes and the state returns to an empty run. -/
theorem step_boundary_end (A : List Iv) (k : ℕ) (out : List Iv) (s e : ℕ) (v : ℚ)
    (hk : k < A.length) (ht : trackGet A k = (s, e, v)) (hse : s < e)
    (hnext : A.length ≤ k + 1 ∨ e < (trackGet A (k + 1)).1) :
    stepMerge A [] ⟨k, 0, List.replicate (e - s) v, out⟩ e =
      ⟨k + 1, 0, [], out ++ [(s, e, v)]⟩ := by
  have hlen : e - s ≠ 0 := by omega
  have hsig : ¬ (k + 1 < A.length ∧ (trackGet A (k + 1)).1 ≤ e) := by
    rcases hnext with hl | hgt
    · exact fun hc => absurd hc.1 (not_lt.mpr hl)
    · exact fun hc => absurd hc.2 (not_le.mpr hgt)
  dsimp only [stepMerge]
  rw [if_pos ⟨hk, by rw [ht]⟩,
    if_neg (fun hc => absurd hc.1 (lt_irrefl 0)),
    if_neg hsig,
    if_neg (fun hc => absurd hc.1 (lt_irrefl 0)),
    add_zero, runStep_zero_flush e _ out (replicate_ne_nil _ v hlen)]
  rw [getLastD_replicate _ v 0 hlen, List.length_replicate]
  have h1 : e - (e - s) = s := by omega
  rw [h1]

/-! ### Track access facts -/

/-- `trackGet` agrees with ordinary indexing inside bounds. -/
theorem trackGet_eq_get (A : List Iv) (k : ℕ) (hk : k < A.length) :
    trackGet A k = A.get ⟨k, hk⟩ := by
  unfold trackGet
  rw [List.getD_eq_getElem?_getD, List.getElem?_eq_getElem hk]
  rfl

/-- In-bounds `trackGet` values are track members. -/
theorem trackGet_mem (A : List Iv) (k : ℕ) (hk : k < A.length) : trackGet A k ∈ A := by
  rw [trackGet_eq_get A k hk]
  exact A.get_mem _ _

/-- Consecutive in-bounds track entries satisfy the track's chain relation. -/
theorem track_chain_pair {R : Iv → Iv → Prop} (A : List Iv)
    (hchain : List.Chain' R A) (k : ℕ) (hk1 : k + 1 < A.length) :
    R (trackGet A k) (trackGet A (k + 1)) := by
  rw [trackGet_eq_get A k (by omega), trackGet_eq_get A (k + 1) hk1]
  exact List.chain'_iff_get.mp hchain k (by omega)

/-- Dropping `k` entries exposes entry `k` at the head. -/
theorem drop_eq_trackGet_cons (A : List Iv) (k : ℕ) (hk : k < A.length) :
    A.drop k = trackGet A k :: A.drop (k + 1) := by
  rw [List.drop_eq_getElem_cons hk, trackGet_eq_get A k hk, List.get_eq_getElem]

/-! ### Multi-step sweep lemmas against the empty track -/

/-- Sweeping past the end of the track leaves the state unchanged. -/
theorem sweep_gap_none (A : List Iv) (k : ℕ) (hk : A.length ≤ k) :
    ∀ (n c : ℕ) (out : List Iv),
      (List.range' c n).foldl (stepMerge A []) ⟨k, 0, [], out⟩ = ⟨k, 0, [], out⟩ := by
  intro n
  induction n with
  | zero => intro c out; rfl
  | succ m ih =>
    intro c out
    rw [List.range'_succ, List.foldl_cons, step_gap_none A k c out hk]
    exact ih (c + 1) out

/-- Sweeping a gap strictly before the current interval leaves the state
unchanged. -/
theorem sweep_gap (A : List Iv) (s e : ℕ) (v : ℚ) (k : ℕ) (hk : k < A.length)
    (ht : trackGet A k = (s, e, v)) (hse : s < e) :
    ∀ (n c : ℕ), c + n ≤ s → ∀ out : List Iv,
      (List.range' c n).foldl (stepMerge A []) ⟨k, 0, [], out⟩ = ⟨k, 0, [], out⟩ := by
  intro n
  induction n with
  | zero => intro c h out; rfl
  | succ m ih =>
    intro c h out
    rw [List.range'_succ, List.foldl_cons, step_before A k c out s e v hk ht (by omega) hse]
    exact ih (c + 1) (by omega) out

/-- Sweeping inside the current interval grows the run one value per base. -/
theorem sweep_run (A : List Iv) (s e : ℕ) (v : ℚ) (k : ℕ) (hk : k < A.length)
    (ht : trackGet A k = (s, e, v)) (hv : v ≠ 0) :
    ∀ (n c : ℕ), s ≤ c → c + n ≤ e → ∀ out : List Iv,
      (List.range' c n).foldl (stepMerge A []) ⟨k, 0, List.replicate (c - s) v, out⟩ =
        ⟨k, 0, List.replicate (c + n - s) v, out⟩ := by
  intro n
  induction n with
  | zero =>
    intro c h1 h2 out
    have h3 : c + 0 - s = c - s := by omega
    rw [h3]
    rfl
  | succ m ih =>
    intro c h1 h2 out
    rw [List.range'_succ, List.foldl_cons, step_run A k c out s e v hk ht h1 (by omega) hv]
    have h4 := ih (c + 1) (by omega) (by omega) out
    have h5 : c + 1 + m - s = c + (m + 1) - s := by omega
    rw [h5] at h4
    exact h4

/-- Main sweep lemma for merging a strictly well-formed track `A` with the
empty track: from entry `k` onward (entered either in a gap before interval
`k`, or mid-run inside interval `k`), the sweep over the remaining positions
emits exactly the remaining intervals `A.drop k` and ends past the track with
an empty run. -/
theorem sweep_main (A : List Iv) (L : ℕ)
    (hwf : ∀ t ∈ A, t.1 < t.2.1 ∧ t.2.1 < L ∧ t.2.2 ≠ 0)
    (hchain : List.Chain' (fun a b : Iv => a.2.1 ≤ b.1 ∧ (a.2.1 = b.1 → a.2.2 ≠ b.2.2)) A) :
    ∀ n k, A.length - k = n → k ≤ A.length →
      (∀ c (out : List Iv), c ≤ L → (k < A.length → c ≤ (trackGet A k).1) →
        (List.range' c (L - c)).foldl (stepMerge A []) ⟨k, 0, [], out⟩ =
          ⟨A.length, 0, [], out ++ A.drop k⟩) ∧
      (∀ c (out : List Iv), k < A.length → (trackGet A k).1 ≤ c →
        c ≤ (trackGet A k).2.1 →
        (List.range' c (L - c)).foldl (stepMerge A [])
            ⟨k, 0, List.replicate (c - (trackGet A k).1) (trackGet A k).2.2, out⟩ =
          ⟨A.length, 0, [], out ++ A.drop k⟩) := by
  intro n
  induction n with
  | zero =>
    intro k hn hkle
    have hkeq : k = A.length := by omega
    subst hkeq
    constructor
    · intro c out hcL hcs
      rw [sweep_gap_none A A.length le_rfl (L - c) c out, List.drop_length,
        List.append_nil]
    · intro c out hkl
      exact absurd hkl (lt_irrefl _)
  | succ m ih =>
    intro k hn hkle
    have hkl : k < A.length := by omega
    rcases htk : trackGet A k with ⟨s, e, v⟩
    have hmem : (s, e, v) ∈ A := htk ▸ trackGet_mem A k hkl
    have hse : s < e := (hwf _ hmem).1
    have heL : e < L := (hwf _ hmem).2.1
    have hv : v ≠ 0 := (hwf _ hmem).2.2
    have hdropk : A.drop k = (s, e, v) :: A.drop (k + 1) := by
      rw [drop_eq_trackGet_cons A k hkl, htk]
    have runPart : ∀ c (out : List Iv), k < A.length → s ≤ c → c ≤ e →
        (List.range' c (L - c)).foldl (stepMerge A [])
            ⟨k, 0, List.replicate (c - s) v, out⟩ =
          ⟨A.length, 0, [], out ++ A.drop k⟩ := by
      intro c out _ h1 h2
      have hsplit : L - c = (L - e) + (e - c) := by omega
      rw [hsplit, ← List.range'_append_1, List.foldl_append]
      have hce : c + (e - c) = e := by omega
      rw [hce, sweep_run A s e v k hkl htk hv (e - c) c h1 (by omega) out]
      have h3 : c + (e - c) - s = e - s := by omega
      rw [h3]
      have h4 : L - e = (L - (e + 1)) + 1 := by omega
      rw [h4, List.range'_succ, List.foldl_cons]
      by_cases hadj : k + 1 < A.length ∧ (trackGet A (k + 1)).1 = e
      · obtain ⟨hk1, hstart⟩ := hadj
        rcases ht2 : trackGet A (k + 1) with ⟨s2, e2, v2⟩
        have hmem2 : (s2, e2, v2) ∈ A := ht2 ▸ trackGet_mem A (k + 1) hk1
        have hse2 : s2 < e2 := (hwf _ hmem2).1
        have hv2 : v2 ≠ 0 := (hwf _ hmem2).2.2
        have hs2e : s2 = e := by rw [ht2] at hstart; exact hstart
        have hpair := track_chain_pair A hchain k hk1
        rw [htk, ht2] at hpair
        have hne : v2 ≠ v := by
          refine fun hvv => (hpair.2 ?_) hvv.symm
          dsimp only
          omega
        rw [step_boundary_adj A k _ s e v s2 e2 v2 hk1 htk ht2 hs2e hse hv2 hne]
        have hrun2 := (ih (k + 1) (by omega) (by omega)).2 (e + 1) (out ++ [(s, e, v)])
          hk1 (by rw [ht2]; dsimp only; omega) (by rw [ht2]; dsimp only; omega)
        rw [ht2] at hrun2
        dsimp only at hrun2
        have h5 : e + 1 - s2 = 1 := by omega
        rw [h5, List.replicate_one] at hrun2
        rw [hrun2, hdropk, List.append_assoc, List.singleton_append]
      · have hnext : A.length ≤ k + 1 ∨ e < (trackGet A (k + 1)).1 := by
          by_cases hk1 : k + 1 < A.length
          · right
            have hpair := track_chain_pair A hchain k hk1
            rw [htk] at hpair
            have hle : e ≤ (trackGet A (k + 1)).1 := hpair.1
            have hne : (trackGet A (k + 1)).1 ≠ e := fun hcontra => hadj ⟨hk1, hcontra⟩
            omega
          · left
            omega
        rw [step_boundary_end A k _ s e v hkl htk hse hnext]
        have hgap2 := (ih (k + 1) (by omega) (by omega)).1 (e + 1) (out ++ [(s, e, v)])
          (by omega) (fun hk1 => by
            rcases hnext with hl | hgt
            · exact absurd hk1 (not_lt.mpr hl)
            · omega)
        rw [hgap2, hdropk, List.append_assoc, List.singleton_append]
    refine ⟨?_, runPart⟩
    intro c out hcL hcs
    have hcs' : c ≤ s := hcs hkl
    have hsplit : L - c = (L - s) + (s - c) := by omega
    rw [hsplit, ← List.range'_append_1, List.foldl_append]
    have hcs2 : c + (s - c) = s := by omega
    rw [hcs2, sweep_gap A s e v k hkl htk hse (s - c) c (by omega) out]
    have hrun := runPart s out hkl le_rfl (by omega)
    rw [Nat.sub_self, List.replicate_zero] at hrun
    exact hrun

/-- C2 (amended): merging a track with the empty track over chromosome length
`L` reproduces the track exactly, provided every interval carries a nonzero
value and ends strictly before `L` (an interval ending exactly at `L` would
be silently dropped, as the counterexample shows, and a zero-valued interval
is treated as a gap). -/
theorem combine_empty_track_identity (A : List Iv) (L : ℕ)
    (hwf : track_wf_strict A L) : combine_bw_intervals A [] L = A := by
  obtain ⟨hwf1, hchain⟩ := hwf
  unfold combine_bw_intervals
  rw [List.range_eq_range']
  have hmain := (sweep_main A L hwf1 hchain A.length 0 (by omega) (by omega)).1 0 []
    (by omega) (fun _ => by omega)
  have h0 : L - 0 = L := by omega
  rw [h0] at hmain
  rw [hmain]
  simp

/-- C2 witness: a strictly well-formed two-interval track over length 10 is
reproduced exactly by the merge with the empty track. -/
theorem combine_empty_track_identity_witness :
    track_wf_strict [(0, 3, 2), (5, 8, 1)] 10 ∧
      combine_bw_intervals [(0, 3, 2), (5, 8, 1)] [] 10 = [(0, 3, 2), (5, 8, 1)] := by
  have hwf : track_wf_strict [(0, 3, 2), (5, 8, 1)] 10 := by
    constructor
    · intro t ht
      fin_cases ht <;> norm_num
    · refine List.chain'_cons.mpr ⟨⟨by norm_num, fun h => by norm_num⟩, ?_⟩
      exact List.chain'_singleton _
  exact ⟨hwf, combine_empty_track_identity _ 10 hwf⟩

/-! ### Coalescing invariant of the sweep -/

/-- The link between the last output interval and a freshly flushed run:
if they abut, their values differ. -/
theorem flush_link (i : ℕ) (stack : List ℚ) (out : List Iv)
    (hlen : stack.length ≤ i) (hstack : stack ≠ [])
    (hlast : ∀ prev, out.getLast? = some prev →
      (stack = [] → prev.2.1 < i) ∧
      (stack ≠ [] → prev.2.1 + stack.length = i → prev.2.2 ≠ stack.getLastD 0)) :
    ∀ x ∈ out.getLast?, ∀ y ∈ ([(i - stack.length, i, stack.getLastD 0)] : List Iv).head?,
      touchDiff x y := by
  intro x hx y hy
  rw [Option.mem_def] at hx hy
  rw [List.head?_cons] at hy
  have hy' := Option.some.inj hy
  subst hy'
  intro htouch
  dsimp only at htouch ⊢
  exact (hlast x hx).2 hstack (by omega)

/-- The sweep body preserves the coalescing invariant, whatever the signal at
this base is. -/
theorem sweepInv_runStep (i : ℕ) (signal : ℚ) (stack : List ℚ) (out : List Iv)
    (h : sweepInv stack out i) :
    sweepInv (runStep i signal stack out).1 (runStep i signal stack out).2 (i + 1) := by
  obtain ⟨hlen, hchain, hlast⟩ := h
  by_cases hsig : signal = 0
  · subst hsig
    by_cases hstack : stack = []
    · subst hstack
      rw [runStep_zero_nil]
      refine ⟨by simp, hchain, ?_⟩
      intro prev hprev
      obtain ⟨h1, -⟩ := hlast prev hprev
      have := h1 rfl
      exact ⟨fun _ => by omega, fun hne => absurd rfl hne⟩
    · rw [runStep_zero_flush i stack out hstack]
      dsimp only
      refine ⟨Nat.zero_le _, ?_, ?_⟩
      · exact List.Chain'.append hchain (List.chain'_singleton _)
          (flush_link i stack out hlen hstack hlast)
      · intro prev hprev
        rw [List.getLast?_concat] at hprev
        have hprev' := Option.some.inj hprev
        subst hprev'
        dsimp only
        exact ⟨fun _ => by omega, fun hne => absurd rfl hne⟩
  · by_cases hstack : stack = []
    · subst hstack
      rw [runStep_pos_nil i signal out hsig]
      dsimp only
      refine ⟨by simp, hchain, ?_⟩
      intro prev hprev
      obtain ⟨h1, -⟩ := hlast prev hprev
      have := h1 rfl
      refine ⟨fun hc => absurd hc (List.cons_ne_nil _ _), fun _ hsum => ?_⟩
      exfalso
      rw [List.length_singleton] at hsum
      omega
    · by_cases heq : stack.getLastD 0 = signal
      · rw [runStep_pos_extend i signal stack out hsig hstack heq]
        dsimp only
        refine ⟨by simp; omega, hchain, ?_⟩
        intro prev hprev
        obtain ⟨-, h2⟩ := hlast prev hprev
        refine ⟨fun hc => absurd hc (by simp), fun _ hsum => ?_⟩
        rw [List.getLastD_concat]
        rw [List.length_append, List.length_singleton] at hsum
        have := h2 hstack (by omega)
        rw [heq] at this
        exact this
      · rw [runStep_pos_change i signal stack out hsig hstack heq]
        dsimp only
        refine ⟨by simp, ?_, ?_⟩
        · exact List.Chain'.append hchain (List.chain'_singleton _)
            (flush_link i stack out hlen hstack hlast)
        · intro prev hprev
          rw [List.getLast?_concat] at hprev
          have hprev' := Option.some.inj hprev
          subst hprev'
          refine ⟨fun hc => absurd hc (List.cons_ne_nil _ _), fun _ _ => ?_⟩
          dsimp only
          simpa using heq

/-- One sweep iteration preserves the coalescing invariant. -/
theorem sweepInv_step (rep1 rep2 : List Iv) (st : MState) (i : ℕ)
    (h : sweepInv st.stack st.out i) :
    sweepInv (stepMerge rep1 rep2 st i).stack (stepMerge rep1 rep2 st i).out (i + 1) := by
  dsimp only [stepMerge]
  exact sweepInv_runStep i _ st.stack st.out h

/-- The coalescing invariant holds after the whole sweep. -/
theorem sweepInv_fold (rep1 rep2 : List Iv) (L : ℕ) :
    sweepInv (((List.range L).foldl (stepMerge rep1 rep2) ⟨0, 0, [], []⟩).stack)
      (((List.range L).foldl (stepMerge rep1 rep2) ⟨0, 0, [], []⟩).out) L := by
  induction L with
  | zero =>
    refine ⟨le_rfl, List.chain'_nil, ?_⟩
    intro prev hprev
    simp at hprev
  | succ m ih =>
    rw [List.range_succ, List.foldl_append, List.foldl_cons, List.foldl_nil]
    exact sweepInv_step rep1 rep2 _ m ih

/-- C7: for well-formed input tracks, no two abutting intervals of the merged
output share a value — every maximal constant run is emitted as one interval.
(Output intervals separated by a gap of zero signal are distinct maximal runs
even when their values coincide.) -/
theorem combine_coalesced_touching (rep1 rep2 : List Iv) (L : ℕ)
    (h1 : track_wf rep1 L) (h2 : track_wf rep2 L) :
    List.Chain' touchDiff (combine_bw_intervals rep1 rep2 L) :=
  (sweepInv_fold rep1 rep2 L).2.1

/-- C7 witness: the merged output of Scenario B's two well-formed tracks is
coalesced. -/
theorem combine_coalesced_touching_witness :
    List.Chain' touchDiff (combine_bw_intervals [(0, 10, 2)] [(5, 15, 3)] 20) := by
  refine combine_coalesced_touching _ _ 20 ⟨?_, ?_⟩ ⟨?_, ?_⟩
  · intro t ht
    fin_cases ht <;> norm_num
  · exact List.chain'_singleton _
  · intro t ht
    fin_cases ht <;> norm_num
  · exact List.chain'_singleton _

end RGLib
